import Mathlib

/-!
Verification of the vois library specification: the hierarchical label tree
used by the treeview helper (spec §3, §4.1) and the color helpers (§4.2).
The Python modules `vois/vuetify/treeview.py` and `vois/colors.py` are not
part of the provided sources (only their callers, tests and autodoc stubs
are), so the definitions below are modelled from the specification text and
checked for the properties the specification asserts about them.
-/

namespace Vois

/-- A path segment: one component of a dot-separated path string. -/
abbrev Seg := List Char

/-- A fully qualified path: the chain of segments from the top level down.
The synthetic root is represented by the empty chain. -/
abbrev Path := List Seg

/-- First-match association-list lookup. -/
def alookup {α β : Type} [DecidableEq α] : List (α × β) → α → Option β
  | [], _ => none
  | e :: es, k => if e.1 = k then some e.2 else alookup es k

theorem alookup_nil {α β : Type} [DecidableEq α] (k : α) :
    alookup ([] : List (α × β)) k = none := rfl

theorem alookup_cons {α β : Type} [DecidableEq α] (e : α × β) (es : List (α × β)) (k : α) :
    alookup (e :: es) k = if e.1 = k then some e.2 else alookup es k := rfl

theorem alookup_append {α β : Type} [DecidableEq α] (l m : List (α × β)) (k : α) :
    alookup (l ++ m) k =
      match alookup l k with
      | some v => some v
      | none => alookup m k := by
  induction l with
  | nil => simp [alookup]
  | cons e es ih =>
    by_cases h : e.1 = k <;> simp [alookup, h, ih]

theorem alookup_eq_none_iff {α β : Type} [DecidableEq α] (l : List (α × β)) (k : α) :
    alookup l k = none ↔ k ∉ l.map Prod.fst := by
  induction l with
  | nil => simp [alookup]
  | cons e es ih =>
    rw [alookup_cons]
    by_cases h : e.1 = k
    · simp only [h, if_pos rfl]
      constructor
      · intro hc; exact absurd hc (by simp)
      · intro hc
        exact absurd (by simp [← h] : k ∈ (e :: es).map Prod.fst) hc
    · simp only [if_neg h, ih, List.map_cons, List.mem_cons]
      constructor
      · intro hc hor
        rcases hor with heq | hmem
        · exact h heq.symm
        · exact hc hmem
      · intro hc hmem
        exact hc (Or.inr hmem)

theorem mem_of_alookup_eq_some {α β : Type} [DecidableEq α] {l : List (α × β)} {k : α} {v : β}
    (h : alookup l k = some v) : (k, v) ∈ l := by
  induction l with
  | nil => simp [alookup] at h
  | cons e es ih =>
    obtain ⟨a, b⟩ := e
    rw [alookup_cons] at h
    by_cases he : a = k
    · subst he
      obtain rfl : b = v := by simpa [alookup] using h
      exact List.mem_cons.mpr (Or.inl rfl)
    · rw [if_neg he] at h
      exact List.mem_cons_of_mem _ (ih h)

theorem alookup_eq_some_of_mem {α β : Type} [DecidableEq α] {l : List (α × β)} {k : α} {v : β}
    (hnd : (l.map Prod.fst).Nodup) (h : (k, v) ∈ l) : alookup l k = some v := by
  induction l with
  | nil => simp at h
  | cons e es ih =>
    rw [List.map_cons, List.nodup_cons] at hnd
    rcases List.mem_cons.mp h with heq | hmem
    · subst heq
      simp [alookup]
    · have hk : k ∈ es.map Prod.fst := List.mem_map.mpr ⟨(k, v), hmem, rfl⟩
      have hne : e.1 ≠ k := fun heq => hnd.1 (by rw [heq]; exact hk)
      rw [alookup_cons, if_neg hne]
      exact ih hnd.2 hmem

theorem alookup_filter_of_kept {α β : Type} [DecidableEq α] (l : List (α × β))
    (pred : α × β → Bool) (k : α) (hkeep : ∀ e ∈ l, e.1 = k → pred e = true) :
    alookup (l.filter pred) k = alookup l k := by
  induction l with
  | nil => simp
  | cons e es ih =>
    have ih' := ih (fun e' he' => hkeep e' (List.mem_cons_of_mem _ he'))
    by_cases hk : e.1 = k
    · rw [List.filter_cons, hkeep e (List.mem_cons_self e es) hk]
      simp [alookup, hk, ih']
    · rw [List.filter_cons]
      by_cases hp : pred e = true
      · simp [hp, alookup, hk, ih']
      · simp [hp, alookup, hk, ih']

/-- Splitting accumulator: collects the current segment (reversed) while
scanning the characters of a path string. -/
def splitSegsAux (sep : Char) : List Char → List Char → List Seg
  | [], acc => [acc.reverse]
  | c :: cs, acc =>
    if c = sep then acc.reverse :: splitSegsAux sep cs []
    else splitSegsAux sep cs (c :: acc)

/-- Split a path string (as a character list) into its segments at the
separator character, mirroring Python's `str.split(separator)`. -/
def splitSegs (sep : Char) (s : List Char) : List Seg :=
  splitSegsAux sep s []

/-- Modelled from the spec: the Tree entity of §3 for the treeview helper
(`vois/vuetify/treeview.py`, not among the provided sources). It keeps the
two mappings the spec requires — id→path and path→id — plus the next free
identifier. The synthetic root has id 0 and the empty path; children are
recovered from the id-ordered map, so child order is first-encounter order. -/
structure Tree where
  id2path : List (Nat × Path)
  path2id : List (Path × Nat)
  nextId : Nat
deriving DecidableEq

/-- The tree holding only the synthetic root (id 0, empty path). -/
def emptyTree : Tree :=
  { id2path := [(0, [])], path2id := [([], 0)], nextId := 1 }

/-- Lookup(id) → path: first-match lookup in the id→path map. -/
def lookupId (t : Tree) (i : Nat) : Option Path :=
  alookup t.id2path i

/-- Lookup(path) → id: first-match lookup in the path→id map. -/
def lookupPath (t : Tree) (p : Path) : Option Nat :=
  alookup t.path2id p

/-- Modelled from the spec: insert a single node with full path `q` if it is
not present, assigning it the next sequential identifier and appending it to
both maps (first-encounter order). -/
def insertPath1 (t : Tree) (q : Path) : Tree :=
  match lookupPath t q with
  | some _ => t
  | none =>
    { id2path := t.id2path ++ [(t.nextId, q)],
      path2id := t.path2id ++ [(q, t.nextId)],
      nextId := t.nextId + 1 }

/-- The nonempty chains of segments leading to `p`: `take 1 p`, …, `p`. -/
def chainsOf (p : Path) : List Path :=
  (List.range p.length).map (fun k => p.take (k + 1))

/-- Modelled from the spec: insert a full path, synthesizing an intermediate
node for every chain of segments leading to it that is not already present. -/
def insertPath (t : Tree) (p : Path) : Tree :=
  (chainsOf p).foldl insertPath1 t

/-- Modelled from the spec: Build(paths, separator, rootName) of §4.1.
Each input string is split at the separator; Build fails with a validation
error if any resulting segment is empty, otherwise every path and all its
prefixes are inserted in first-encounter order starting from the root-only
tree. The root label plays no role in the bookkeeping (the root is the
empty path), so it is not stored here. -/
def build (sep : Char) (paths : List (List Char)) : Except String Tree :=
  let segss := paths.map (splitSegs sep)
  if segss.any (fun segs => segs.any (fun s => s.isEmpty)) then
    Except.error "empty path segment"
  else
    Except.ok (segss.foldl insertPath emptyTree)

/-- Build from Lean string literals, for concrete examples. -/
def buildS (sep : Char) (paths : List String) : Except String Tree :=
  build sep (paths.map String.toList)

/-- Extract the successful result of a build, if any. -/
def okTree : Except String Tree → Option Tree
  | Except.ok t => some t
  | Except.error _ => none

/-- `isChild p q` holds when `q` is `p` extended by exactly one segment. -/
def isChild (p q : Path) : Bool :=
  decide (q.length = p.length + 1) && decide (q.take p.length = p)

/-- Children(path): the ordered sequence of child paths of `p`, in the order
the nodes were first encountered (the order of the id→path map). -/
def getChildren (t : Tree) (p : Path) : List Path :=
  (t.id2path.filter (fun e => isChild p e.2)).map Prod.snd

/-- `strictUnder p q` holds when `q` lies strictly inside the subtree rooted
at `p`: `p` is a proper leading chain of `q`. -/
def strictUnder (p q : Path) : Bool :=
  decide (p.length < q.length) && decide (q.take p.length = p)

/-- Remove every node strictly inside the subtree rooted at `p` from both
maps. Identifiers are never reused: `nextId` is kept. -/
def removeDesc (t : Tree) (p : Path) : Tree :=
  { id2path := t.id2path.filter (fun e => !(strictUnder p e.2)),
    path2id := t.path2id.filter (fun e => !(strictUnder p e.1)),
    nextId := t.nextId }

/-- Modelled from the spec: SetChildren(path, childPaths) of §4.1 — replaces
a node's children, synthesizing new nodes for any unseen paths; a no-op when
`p` is not present (operating on a missing path must never corrupt the maps). -/
def setChildren (t : Tree) (p : Path) (cs : List Path) : Tree :=
  match lookupPath t p with
  | none => t
  | some _ => cs.foldl insertPath (removeDesc t p)

/-- A sequence of SetChildren mutations applied in order. -/
def applyOps (t : Tree) (ops : List (Path × List Path)) : Tree :=
  ops.foldl (fun t' op => setChildren t' op.1 op.2) t

/-- The bookkeeping invariant of §3: the path→id map is the pointwise swap of
the id→path map, identifiers are unique, stored paths are unique, and every
identifier is below the next free one. -/
def Inv (t : Tree) : Prop :=
  t.path2id = t.id2path.map (fun e => (e.2, e.1)) ∧
  (t.id2path.map Prod.fst).Nodup ∧
  (t.id2path.map Prod.snd).Nodup ∧
  ∀ e ∈ t.id2path, e.1 < t.nextId

instance (t : Tree) : Decidable (Inv t) := by
  unfold Inv
  infer_instance

theorem inv_empty : Inv emptyTree := by decide

theorem path2id_keys_of_inv {t : Tree} (h : Inv t) :
    t.path2id.map Prod.fst = t.id2path.map Prod.snd := by
  rw [h.1, List.map_map]
  rfl

theorem mem_path2id_iff_of_inv {t : Tree} (h : Inv t) (p : Path) (i : Nat) :
    (p, i) ∈ t.path2id ↔ (i, p) ∈ t.id2path := by
  rw [h.1, List.mem_map]
  constructor
  · rintro ⟨⟨j, q⟩, hmem, heq⟩
    obtain ⟨h1, h2⟩ := Prod.mk.injEq .. ▸ heq
    simp only at h1 h2
    rw [← h2, ← h1]
    exact hmem
  · intro hmem
    exact ⟨(i, p), hmem, rfl⟩

/-- Under the invariant, the two lookups are mutually inverse: C1's property
`Lookup(Lookup(id)) == id` and `Lookup(Lookup(path)) == path`. -/
theorem lookup_inverse_of_inv {t : Tree} (h : Inv t) (i : Nat) (p : Path) :
    lookupId t i = some p ↔ lookupPath t p = some i := by
  constructor
  · intro hl
    have hmem : (i, p) ∈ t.id2path := mem_of_alookup_eq_some hl
    have hmem' : (p, i) ∈ t.path2id := (mem_path2id_iff_of_inv h p i).mpr hmem
    exact alookup_eq_some_of_mem (by rw [path2id_keys_of_inv h]; exact h.2.2.1) hmem'
  · intro hl
    have hmem' : (p, i) ∈ t.path2id := mem_of_alookup_eq_some hl
    have hmem : (i, p) ∈ t.id2path := (mem_path2id_iff_of_inv h p i).mp hmem'
    exact alookup_eq_some_of_mem h.2.1 hmem

theorem lookupPath_eq_none_iff_of_inv {t : Tree} (h : Inv t) (p : Path) :
    lookupPath t p = none ↔ p ∉ t.id2path.map Prod.snd := by
  rw [lookupPath, alookup_eq_none_iff, path2id_keys_of_inv h]

theorem inv_insertPath1 {t : Tree} (h : Inv t) (q : Path) : Inv (insertPath1 t q) := by
  unfold insertPath1
  cases hl : lookupPath t q with
  | some i => exact h
  | none =>
    obtain ⟨hsync, hids, hpaths, hbound⟩ := h
    have hq : q ∉ t.id2path.map Prod.snd :=
      (lookupPath_eq_none_iff_of_inv ⟨hsync, hids, hpaths, hbound⟩ q).mp hl
    have hn : t.nextId ∉ t.id2path.map Prod.fst := by
      intro hmem
      obtain ⟨e, he, heq⟩ := List.mem_map.mp hmem
      exact absurd (heq ▸ hbound e he) (lt_irrefl _)
    refine ⟨?_, ?_, ?_, ?_⟩
    · simp only [hsync, List.map_append]
      rfl
    · simp only [List.map_append, List.nodup_append]
      exact ⟨hids, List.nodup_singleton _, by simpa using hn⟩
    · simp only [List.map_append, List.nodup_append]
      exact ⟨hpaths, List.nodup_singleton _, by simpa using hq⟩
    · intro e he
      simp only at he
      rcases List.mem_append.mp he with hold | hnew
      · exact Nat.lt_succ_of_lt (hbound e hold)
      · rw [List.mem_singleton.mp hnew]
        exact Nat.lt_succ_self _

theorem inv_foldl_insertPath1 {l : List Path} {t : Tree} (h : Inv t) :
    Inv (l.foldl insertPath1 t) := by
  induction l generalizing t with
  | nil => exact h
  | cons q qs ih => exact ih (inv_insertPath1 h q)

theorem inv_insertPath {t : Tree} (h : Inv t) (p : Path) : Inv (insertPath t p) :=
  inv_foldl_insertPath1 h

theorem inv_foldl_insertPath {l : List Path} {t : Tree} (h : Inv t) :
    Inv (l.foldl insertPath t) := by
  induction l generalizing t with
  | nil => exact h
  | cons q qs ih => exact ih (inv_insertPath h q)

theorem inv_removeDesc {t : Tree} (h : Inv t) (p : Path) : Inv (removeDesc t p) := by
  obtain ⟨hsync, hids, hpaths, hbound⟩ := h
  refine ⟨?_, ?_, ?_, ?_⟩
  · show t.path2id.filter _ = _
    rw [hsync, List.filter_map]
    rfl
  · exact hids.sublist (List.Sublist.map _ (List.filter_sublist _))
  · exact hpaths.sublist (List.Sublist.map _ (List.filter_sublist _))
  · intro e he
    exact hbound e (List.mem_of_mem_filter he)

theorem inv_setChildren {t : Tree} (h : Inv t) (p : Path) (cs : List Path) :
    Inv (setChildren t p cs) := by
  unfold setChildren
  cases lookupPath t p with
  | none => exact h
  | some i => exact inv_foldl_insertPath (inv_removeDesc h p)

theorem inv_applyOps {t : Tree} (h : Inv t) (ops : List (Path × List Path)) :
    Inv (applyOps t ops) := by
  induction ops generalizing t with
  | nil => exact h
  | cons op ops ih => exact ih (inv_setChildren h op.1 op.2)

theorem inv_build {sep : Char} {paths : List (List Char)} {t : Tree}
    (h : build sep paths = Except.ok t) : Inv t := by
  unfold build at h
  by_cases hc : (paths.map (splitSegs sep)).any (fun segs => segs.any (fun s => s.isEmpty))
  · simp [hc] at h
  · simp [hc] at h
    rw [← h]
    exact inv_foldl_insertPath inv_empty

theorem inv_buildS {sep : Char} {paths : List String} {t : Tree}
    (h : buildS sep paths = Except.ok t) : Inv t :=
  inv_build h

theorem alookup_filter_of_some {α β : Type} [DecidableEq α] {l : List (α × β)}
    {pred : α × β → Bool} {k : α} {v : β} (hnd : (l.map Prod.fst).Nodup)
    (h : alookup l k = some v) :
    alookup (l.filter pred) k = some v ∨ alookup (l.filter pred) k = none := by
  cases hres : alookup (l.filter pred) k with
  | none => exact Or.inr rfl
  | some w =>
    have hmem : (k, w) ∈ l := List.mem_of_mem_filter (mem_of_alookup_eq_some hres)
    have : alookup l k = some w := alookup_eq_some_of_mem hnd hmem
    rw [h] at this
    exact Or.inl (by rw [← Option.some.injEq _ _ |>.mpr rfl]; rw [← this])

theorem alookup_filter_of_none {α β : Type} [DecidableEq α] {l : List (α × β)}
    {pred : α × β → Bool} {k : α} (h : alookup l k = none) :
    alookup (l.filter pred) k = none := by
  rw [alookup_eq_none_iff] at h ⊢
  intro hmem
  obtain ⟨e, he, heq⟩ := List.mem_map.mp hmem
  exact h (List.mem_map.mpr ⟨e, List.mem_of_mem_filter he, heq⟩)

theorem nextId_insertPath1 (t : Tree) (q : Path) : t.nextId ≤ (insertPath1 t q).nextId := by
  unfold insertPath1
  cases lookupPath t q with
  | some i => exact le_refl _
  | none => exact Nat.le_succ _

theorem nextId_foldl_insertPath1 (l : List Path) (t : Tree) :
    t.nextId ≤ (l.foldl insertPath1 t).nextId := by
  induction l generalizing t with
  | nil => exact le_refl _
  | cons q qs ih => exact le_trans (nextId_insertPath1 t q) (ih _)

theorem nextId_insertPath (t : Tree) (p : Path) : t.nextId ≤ (insertPath t p).nextId :=
  nextId_foldl_insertPath1 _ _

theorem nextId_foldl_insertPath (l : List Path) (t : Tree) :
    t.nextId ≤ (l.foldl insertPath t).nextId := by
  induction l generalizing t with
  | nil => exact le_refl _
  | cons q qs ih => exact le_trans (nextId_insertPath t q) (ih _)

theorem nextId_setChildren (t : Tree) (p : Path) (cs : List Path) :
    t.nextId ≤ (setChildren t p cs).nextId := by
  unfold setChildren
  cases lookupPath t p with
  | none => exact le_refl _
  | some i =>
    show t.nextId ≤ (cs.foldl insertPath (removeDesc t p)).nextId
    exact nextId_foldl_insertPath cs (removeDesc t p)

theorem lookupId_insertPath1_some {t : Tree} {q : Path} {i : Nat} {p : Path}
    (h : lookupId t i = some p) : lookupId (insertPath1 t q) i = some p := by
  unfold insertPath1
  cases lookupPath t q with
  | some j => exact h
  | none =>
    show alookup (t.id2path ++ _) i = some p
    rw [alookup_append]
    rw [lookupId] at h
    rw [h]

theorem lookupId_insertPath1_none {t : Tree} {q : Path} {i : Nat}
    (hi : i < t.nextId) (h : lookupId t i = none) :
    lookupId (insertPath1 t q) i = none := by
  unfold insertPath1
  cases lookupPath t q with
  | some j => exact h
  | none =>
    show alookup (t.id2path ++ _) i = none
    rw [alookup_append]
    rw [lookupId] at h
    rw [h]
    show (if t.nextId = i then _ else _) = _
    rw [if_neg (Nat.ne_of_gt hi)]
    rfl

theorem lookupPath_insertPath1_some {t : Tree} {q : Path} {p : Path} {i : Nat}
    (h : lookupPath t p = some i) : lookupPath (insertPath1 t q) p = some i := by
  unfold insertPath1
  cases lookupPath t q with
  | some j => exact h
  | none =>
    show alookup (t.path2id ++ _) p = some i
    rw [alookup_append]
    rw [lookupPath] at h
    rw [h]

theorem lookupPath_foldl_insertPath1_some {l : List Path} {t : Tree} {p : Path} {i : Nat}
    (h : lookupPath t p = some i) : lookupPath (l.foldl insertPath1 t) p = some i := by
  induction l generalizing t with
  | nil => exact h
  | cons q qs ih => exact ih (lookupPath_insertPath1_some h)

theorem lookupPath_insertPath_some {t : Tree} {q : Path} {p : Path} {i : Nat}
    (h : lookupPath t p = some i) : lookupPath (insertPath t q) p = some i :=
  lookupPath_foldl_insertPath1_some h

theorem lookupPath_foldl_insertPath_some {l : List Path} {t : Tree} {p : Path} {i : Nat}
    (h : lookupPath t p = some i) : lookupPath (l.foldl insertPath t) p = some i := by
  induction l generalizing t with
  | nil => exact h
  | cons q qs ih => exact ih (lookupPath_insertPath_some h)

theorem lookupId_foldl_insertPath1_some {l : List Path} {t : Tree} {i : Nat} {p : Path}
    (h : lookupId t i = some p) : lookupId (l.foldl insertPath1 t) i = some p := by
  induction l generalizing t with
  | nil => exact h
  | cons q qs ih => exact ih (lookupId_insertPath1_some h)

theorem lookupId_insertPath_some {t : Tree} {q : Path} {i : Nat} {p : Path}
    (h : lookupId t i = some p) : lookupId (insertPath t q) i = some p :=
  lookupId_foldl_insertPath1_some h

theorem lookupId_foldl_insertPath_some {l : List Path} {t : Tree} {i : Nat} {p : Path}
    (h : lookupId t i = some p) : lookupId (l.foldl insertPath t) i = some p := by
  induction l generalizing t with
  | nil => exact h
  | cons q qs ih => exact ih (lookupId_insertPath_some h)

theorem lookupId_foldl_insertPath1_none {l : List Path} {t : Tree} {i : Nat}
    (hi : i < t.nextId) (h : lookupId t i = none) :
    lookupId (l.foldl insertPath1 t) i = none := by
  induction l generalizing t with
  | nil => exact h
  | cons q qs ih =>
    exact ih (lt_of_lt_of_le hi (nextId_insertPath1 t q)) (lookupId_insertPath1_none hi h)

theorem lookupId_foldl_insertPath_none {l : List Path} {t : Tree} {i : Nat}
    (hi : i < t.nextId) (h : lookupId t i = none) :
    lookupId (l.foldl insertPath t) i = none := by
  induction l generalizing t with
  | nil => exact h
  | cons q qs ih =>
    exact ih (lt_of_lt_of_le hi (nextId_insertPath t q)) (lookupId_foldl_insertPath1_none hi h)

/-- One SetChildren step can only keep or drop an id's binding, never rebind
the id to a different path. -/
theorem lookupId_setChildren_stable {t : Tree} (h : Inv t) (p : Path) (cs : List Path)
    {i : Nat} {q : Path} (hl : lookupId t i = some q) :
    lookupId (setChildren t p cs) i = some q ∨ lookupId (setChildren t p cs) i = none := by
  unfold setChildren
  cases lookupPath t p with
  | none => exact Or.inl hl
  | some j =>
    have hi : i < t.nextId := h.2.2.2 _ (mem_of_alookup_eq_some hl)
    rcases alookup_filter_of_some h.2.1 hl with hkeep | hdrop
    · exact Or.inl (lookupId_foldl_insertPath_some hkeep)
    · exact Or.inr (lookupId_foldl_insertPath_none (t := removeDesc t p) hi hdrop)

theorem lookupId_setChildren_none {t : Tree} (p : Path) (cs : List Path)
    {i : Nat} (hi : i < t.nextId) (hl : lookupId t i = none) :
    lookupId (setChildren t p cs) i = none := by
  unfold setChildren
  cases lookupPath t p with
  | none => exact hl
  | some j =>
    exact lookupId_foldl_insertPath_none (t := removeDesc t p) hi (alookup_filter_of_none hl)

theorem lookupId_applyOps_none {t : Tree} (ops : List (Path × List Path))
    {i : Nat} (hi : i < t.nextId) (hl : lookupId t i = none) :
    lookupId (applyOps t ops) i = none := by
  induction ops generalizing t with
  | nil => exact hl
  | cons op ops ih =>
    exact ih (lt_of_lt_of_le hi (nextId_setChildren t op.1 op.2))
      (lookupId_setChildren_none op.1 op.2 hi hl)

/-- Stability across a whole sequence of SetChildren operations. -/
theorem lookupId_applyOps_stable {t : Tree} (h : Inv t) (ops : List (Path × List Path))
    {i : Nat} {q : Path} (hl : lookupId t i = some q) :
    lookupId (applyOps t ops) i = some q ∨ lookupId (applyOps t ops) i = none := by
  induction ops generalizing t with
  | nil => exact Or.inl hl
  | cons op ops ih =>
    have hi : i < t.nextId := h.2.2.2 _ (mem_of_alookup_eq_some hl)
    rcases lookupId_setChildren_stable h op.1 op.2 hl with hkeep | hdrop
    · exact ih (inv_setChildren h op.1 op.2) hkeep
    · have hi' : i < (setChildren t op.1 op.2).nextId :=
        lt_of_lt_of_le hi (nextId_setChildren t op.1 op.2)
      exact Or.inr (lookupId_applyOps_none ops hi' hdrop)

/-- A small concrete tree: the result of `Build(['A','B'])`. -/
def treeAB : Tree :=
  { id2path := [(0, []), (1, [['A']]), (2, [['B']])],
    path2id := [([], 0), ([['A']], 1), ([['B']], 2)],
    nextId := 3 }

/-- C1: for every tree built from a list of path strings with unique entries,
after every sequence of mutating operations the id→path and path→id maps are
mutually inverse (`Lookup(Lookup(id)) == id` and `Lookup(Lookup(path)) == path`
for every assigned id and stored path), identifiers are unique, and
identifiers are stable: a later operation never rebinds an id to a different
path — it can only keep the binding or remove the node. -/
theorem C1_inverse_maps (paths : List String) (ops : List (Path × List Path)) (t : Tree)
    (_hu : paths.Nodup) (hb : buildS '.' paths = Except.ok t) :
    (∀ i p, lookupId (applyOps t ops) i = some p ↔ lookupPath (applyOps t ops) p = some i) ∧
    ((applyOps t ops).id2path.map Prod.fst).Nodup ∧
    ((applyOps t ops).id2path.map Prod.snd).Nodup ∧
    (∀ i p, lookupId t i = some p →
      lookupId (applyOps t ops) i = some p ∨ lookupId (applyOps t ops) i = none) := by
  have h0 : Inv t := inv_buildS hb
  have h1 : Inv (applyOps t ops) := inv_applyOps h0 ops
  exact ⟨fun i p => lookup_inverse_of_inv h1 i p, h1.2.1, h1.2.2.1,
    fun i p hl => lookupId_applyOps_stable h0 ops hl⟩

theorem C1_inverse_maps_witness :
    lookupId (applyOps treeAB [([['B']], [[['B'], ['1']]])]) 1 = some [['A']] ↔
      lookupPath (applyOps treeAB [([['B']], [[['B'], ['1']]])]) [['A']] = some 1 :=
  (C1_inverse_maps ["A", "B"] [([['B']], [[['B'], ['1']]])] treeAB
    (by decide) (by rfl)).1 1 [['A']]

/-- C6: Lookup with an unknown path or unknown id returns a "not found"
result (`none`) rather than raising, and SetChildren applied to a path that
does not exist is a no-op: the tree — in particular both id maps — is left
exactly unchanged. -/
theorem C6_unknown_keys (t : Tree) (p : Path) (i : Nat) (cs : List Path) (h : Inv t) :
    (p ∉ t.id2path.map Prod.snd → lookupPath t p = none) ∧
    (i ∉ t.id2path.map Prod.fst → lookupId t i = none) ∧
    (lookupPath t p = none →
      setChildren t p cs = t ∧
      (setChildren t p cs).id2path = t.id2path ∧
      (setChildren t p cs).path2id = t.path2id) := by
  refine ⟨?_, ?_, ?_⟩
  · intro hmem
    exact (lookupPath_eq_none_iff_of_inv h p).mpr hmem
  · intro hmem
    exact (alookup_eq_none_iff _ _).mpr hmem
  · intro hnone
    have heq : setChildren t p cs = t := by
      unfold setChildren
      rw [hnone]
    exact ⟨heq, by rw [heq], by rw [heq]⟩

theorem C6_unknown_keys_witness :
    lookupPath treeAB [['C']] = none ∧
    lookupId treeAB 7 = none ∧
    setChildren treeAB [['C']] [[['C'], ['1']]] = treeAB := by
  have h := C6_unknown_keys treeAB [['C']] 7 [[['C'], ['1']]] (by decide)
  exact ⟨h.1 (by decide), h.2.1 (by decide), (h.2.2 (h.1 (by decide))).1⟩

/-- `under p q` holds when the node at `q` lies in the subtree rooted at `p`
(`p` is a leading chain of `q`, possibly all of it). -/
def under (p q : Path) : Bool :=
  decide (q.take p.length = p)

theorem under_refl (p : Path) : under p p = true := by
  simp [under]

theorem under_length {p q : Path} (h : under p q = true) : p.length ≤ q.length := by
  simp only [under, decide_eq_true_eq] at h
  have := congrArg List.length h
  rw [List.length_take] at this
  omega

theorem under_take {p q : Path} (h : under p q = true) : q.take p.length = p := by
  simpa [under] using h

/-- Two chains leading into the same path are comparable. -/
theorem under_comparable {p q r : Path} (hp : under p r = true) (hq : under q r = true) :
    under p q = true ∨ under q p = true := by
  have hp' := under_take hp
  have hq' := under_take hq
  rcases le_total p.length q.length with hle | hle
  · left
    simp only [under, decide_eq_true_eq]
    rw [← hq', List.take_take, min_eq_left hle, hp']
  · right
    simp only [under, decide_eq_true_eq]
    rw [← hp', List.take_take, min_eq_left hle, hq']

theorem strictUnder_iff (p q : Path) :
    strictUnder p q = true ↔ p.length < q.length ∧ under p q = true := by
  simp [strictUnder, under]

theorem strictUnder_of_isChild {p q : Path} (h : isChild p q = true) :
    strictUnder p q = true := by
  simp only [isChild, Bool.and_eq_true, decide_eq_true_eq] at h
  simp only [strictUnder, Bool.and_eq_true, decide_eq_true_eq]
  exact ⟨by omega, h.2⟩

theorem under_of_isChild {p q : Path} (h : isChild p q = true) : under p q = true := by
  simp only [isChild, Bool.and_eq_true, decide_eq_true_eq] at h
  simp only [under, decide_eq_true_eq]
  exact h.2

theorem under_of_strictUnder {p q : Path} (h : strictUnder p q = true) : under p q = true := by
  rw [strictUnder_iff] at h
  exact h.2

/-- Prefix closure (§3's path invariant): for every stored node, every
leading chain of its path is also stored, down to the synthetic root. -/
def PrefixClosed (t : Tree) : Prop :=
  ∀ e ∈ t.id2path, ∀ k ∈ List.range e.2.length, (lookupPath t (e.2.take k)).isSome = true

instance (t : Tree) : Decidable (PrefixClosed t) := by
  unfold PrefixClosed
  infer_instance

theorem self_present_of_mem {t : Tree} (hInv : Inv t) {e : Nat × Path}
    (he : e ∈ t.id2path) : lookupPath t e.2 = some e.1 := by
  have hmem : (e.2, e.1) ∈ t.path2id := (mem_path2id_iff_of_inv hInv e.2 e.1).mpr (by
    cases e
    exact he)
  exact alookup_eq_some_of_mem (by rw [path2id_keys_of_inv hInv]; exact hInv.2.2.1) hmem

theorem pres_of_pc {t : Tree} (hInv : Inv t) (hpc : PrefixClosed t) {e : Nat × Path}
    (he : e ∈ t.id2path) (k : Nat) : (lookupPath t (e.2.take k)).isSome = true := by
  by_cases hk : k < e.2.length
  · exact hpc e he k (List.mem_range.mpr hk)
  · rw [List.take_of_length_le (le_of_not_lt hk)]
    rw [self_present_of_mem hInv he]
    rfl

theorem insertPath1_of_some {t : Tree} {q : Path} {i : Nat}
    (h : lookupPath t q = some i) : insertPath1 t q = t := by
  unfold insertPath1
  rw [h]

theorem insertPath1_of_isSome {t : Tree} {q : Path}
    (h : (lookupPath t q).isSome = true) : insertPath1 t q = t := by
  cases hl : lookupPath t q with
  | none => rw [hl] at h; simp at h
  | some i => exact insertPath1_of_some hl

theorem foldl_insertPath1_of_all_some {l : List Path} {t : Tree}
    (h : ∀ r ∈ l, (lookupPath t r).isSome = true) : l.foldl insertPath1 t = t := by
  induction l with
  | nil => rfl
  | cons r rs ih =>
    have hr := insertPath1_of_isSome (h r (List.mem_cons_self r rs))
    show rs.foldl insertPath1 (insertPath1 t r) = t
    rw [hr]
    exact ih (fun r' hr' => h r' (List.mem_cons_of_mem _ hr'))

theorem lookupPath_insertPath1_self {t : Tree} (q : Path) :
    (lookupPath (insertPath1 t q) q).isSome = true := by
  cases hl : lookupPath t q with
  | some i =>
    rw [insertPath1_of_some hl, hl]
    rfl
  | none =>
    unfold insertPath1
    rw [hl]
    show (alookup (t.path2id ++ [(q, t.nextId)]) q).isSome = true
    rw [alookup_append]
    rw [lookupPath] at hl
    rw [hl]
    simp [alookup]

theorem chainsOf_append_singleton (p : Path) (s : Seg) :
    chainsOf (p ++ [s]) = chainsOf p ++ [p ++ [s]] := by
  unfold chainsOf
  have hlen : (p ++ [s]).length = p.length + 1 := by simp
  rw [hlen, List.range_succ, List.map_append]
  congr 1
  · apply List.map_congr_left
    intro k hk
    have hk' : k + 1 ≤ p.length := List.mem_range.mp hk
    exact List.take_append_of_le_length hk'
  · simp

/-- The first `n` chains of `p` inserted in order; `insertPath` is the case
`n = p.length`. -/
def insertUpTo (t : Tree) (p : Path) (n : Nat) : Tree :=
  (((List.range n).map (fun k => p.take (k + 1))).foldl insertPath1 t)

theorem insertPath_eq_insertUpTo (t : Tree) (p : Path) :
    insertPath t p = insertUpTo t p p.length := rfl

theorem insertUpTo_succ (t : Tree) (p : Path) (n : Nat) :
    insertUpTo t p (n + 1) = insertPath1 (insertUpTo t p n) (p.take (n + 1)) := by
  unfold insertUpTo
  rw [List.range_succ, List.map_append, List.foldl_append]
  rfl

theorem lookupPath_insertPath1_isSome {t : Tree} {q r : Path}
    (h : (lookupPath t r).isSome = true) :
    (lookupPath (insertPath1 t q) r).isSome = true := by
  cases hl : lookupPath t r with
  | none => rw [hl] at h; simp at h
  | some i => rw [lookupPath_insertPath1_some hl]; rfl

/-- Inserting a path whose proper chains are all present preserves prefix
closure. -/
theorem pc_insertPath1 {t : Tree} (hpc : PrefixClosed t) {q : Path}
    (hch : ∀ k ∈ List.range q.length, (lookupPath t (q.take k)).isSome = true) :
    PrefixClosed (insertPath1 t q) := by
  cases hl : lookupPath t q with
  | some i =>
    rw [insertPath1_of_some hl]
    exact hpc
  | none =>
    intro e he k hk
    have hins : (insertPath1 t q).id2path = t.id2path ++ [(t.nextId, q)] := by
      unfold insertPath1
      rw [hl]
    rw [hins] at he
    rcases List.mem_append.mp he with hold | hnew
    · exact lookupPath_insertPath1_isSome (hpc e hold k hk)
    · have heq : e = (t.nextId, q) := List.mem_singleton.mp hnew
      subst heq
      exact lookupPath_insertPath1_isSome (hch k hk)

theorem pc_insertUpTo {t : Tree} (hInv : Inv t) (hpc : PrefixClosed t)
    (hroot : (lookupPath t []).isSome = true) (p : Path) (n : Nat) :
    PrefixClosed (insertUpTo t p n) ∧ Inv (insertUpTo t p n) ∧
    (lookupPath (insertUpTo t p n) []).isSome = true ∧
    ∀ k, k ≤ n → (lookupPath (insertUpTo t p n) (p.take k)).isSome = true := by
  induction n with
  | zero =>
    refine ⟨hpc, hInv, hroot, ?_⟩
    intro k hk
    interval_cases k
    simpa using hroot
  | succ n ih =>
    obtain ⟨ihpc, ihinv, ihroot, ihch⟩ := ih
    rw [insertUpTo_succ]
    have hch : ∀ k ∈ List.range (p.take (n + 1)).length,
        (lookupPath (insertUpTo t p n) ((p.take (n + 1)).take k)).isSome = true := by
      intro k hk
      have hk' : k < (p.take (n + 1)).length := List.mem_range.mp hk
      have hk2 : k ≤ n := by
        have : (p.take (n + 1)).length ≤ n + 1 := by
          rw [List.length_take]
          omega
        omega
      rw [List.take_take, min_eq_left (by omega : k ≤ n + 1)]
      exact ihch k hk2
    refine ⟨pc_insertPath1 ihpc hch, inv_insertPath1 ihinv _,
      lookupPath_insertPath1_isSome ihroot, ?_⟩
    intro k hk
    by_cases hkn : k ≤ n
    · exact lookupPath_insertPath1_isSome (ihch k hkn)
    · have hk1 : k = n + 1 := by omega
      subst hk1
      exact lookupPath_insertPath1_self _

theorem pc_insertPath {t : Tree} (hInv : Inv t) (hpc : PrefixClosed t)
    (hroot : (lookupPath t []).isSome = true) (p : Path) :
    PrefixClosed (insertPath t p) ∧
    (lookupPath (insertPath t p) []).isSome = true ∧
    ∀ k, k ≤ p.length → (lookupPath (insertPath t p) (p.take k)).isSome = true := by
  rw [insertPath_eq_insertUpTo]
  obtain ⟨h1, _, h3, h4⟩ := pc_insertUpTo hInv hpc hroot p p.length
  exact ⟨h1, h3, h4⟩

theorem pc_foldl_insertPath {l : List Path} {t : Tree} (hInv : Inv t) (hpc : PrefixClosed t)
    (hroot : (lookupPath t []).isSome = true) :
    PrefixClosed (l.foldl insertPath t) ∧
    (lookupPath (l.foldl insertPath t) []).isSome = true := by
  induction l generalizing t with
  | nil => exact ⟨hpc, hroot⟩
  | cons q qs ih =>
    obtain ⟨h1, h2, _⟩ := pc_insertPath hInv hpc hroot q
    exact ih (inv_insertPath hInv q) h1 h2

theorem pc_build {sep : Char} {paths : List (List Char)} {t : Tree}
    (h : build sep paths = Except.ok t) :
    PrefixClosed t ∧ (lookupPath t []).isSome = true := by
  unfold build at h
  by_cases hc : (paths.map (splitSegs sep)).any (fun segs => segs.any (fun s => s.isEmpty))
  · simp [hc] at h
  · simp [hc] at h
    rw [← h]
    exact pc_foldl_insertPath inv_empty (by decide) (by decide)

/-- Sequential identifier assignment: the ids stored in the id→path map are
exactly 0, 1, 2, … in encounter order, and the next free id is the node
count. Holds for every freshly built tree. -/
def SeqIds (t : Tree) : Prop :=
  t.id2path.map Prod.fst = List.range t.id2path.length ∧
  t.nextId = t.id2path.length

instance (t : Tree) : Decidable (SeqIds t) := by
  unfold SeqIds
  infer_instance

theorem seqIds_empty : SeqIds emptyTree := by decide

theorem seqIds_insertPath1 {t : Tree} (h : SeqIds t) (q : Path) :
    SeqIds (insertPath1 t q) := by
  cases hl : lookupPath t q with
  | some i => rw [insertPath1_of_some hl]; exact h
  | none =>
    have hins : (insertPath1 t q).id2path = t.id2path ++ [(t.nextId, q)] := by
      unfold insertPath1
      rw [hl]
    have hnext : (insertPath1 t q).nextId = t.nextId + 1 := by
      unfold insertPath1
      rw [hl]
    constructor
    · rw [hins, List.map_append, h.1, List.length_append, h.2]
      simp [List.range_succ]
    · rw [hins, hnext, List.length_append, h.2]
      rfl

theorem seqIds_foldl_insertPath1 {l : List Path} {t : Tree} (h : SeqIds t) :
    SeqIds (l.foldl insertPath1 t) := by
  induction l generalizing t with
  | nil => exact h
  | cons q qs ih => exact ih (seqIds_insertPath1 h q)

theorem seqIds_foldl_insertPath {l : List Path} {t : Tree} (h : SeqIds t) :
    SeqIds (l.foldl insertPath t) := by
  induction l generalizing t with
  | nil => exact h
  | cons q qs ih => exact ih (seqIds_foldl_insertPath1 h)

theorem seqIds_build {sep : Char} {paths : List (List Char)} {t : Tree}
    (h : build sep paths = Except.ok t) : SeqIds t := by
  unfold build at h
  by_cases hc : (paths.map (splitSegs sep)).any (fun segs => segs.any (fun s => s.isEmpty))
  · simp [hc] at h
  · simp [hc] at h
    rw [← h]
    exact seqIds_foldl_insertPath seqIds_empty

theorem root_present_build {sep : Char} {paths : List (List Char)} {t : Tree}
    (h : build sep paths = Except.ok t) : lookupId t 0 = some [] := by
  unfold build at h
  by_cases hc : (paths.map (splitSegs sep)).any (fun segs => segs.any (fun s => s.isEmpty))
  · simp [hc] at h
  · simp [hc] at h
    rw [← h]
    exact lookupId_foldl_insertPath_some (by decide)

theorem lookupPath_foldl_insertPath_isSome {l : List Path} {t : Tree} {p : Path}
    (h : (lookupPath t p).isSome = true) :
    (lookupPath (l.foldl insertPath t) p).isSome = true := by
  cases hl : lookupPath t p with
  | none => rw [hl] at h; simp at h
  | some i => rw [lookupPath_foldl_insertPath_some hl]; rfl

theorem inputs_present_foldl {l : List Path} {t : Tree} (hInv : Inv t) (hpc : PrefixClosed t)
    (hroot : (lookupPath t []).isSome = true) :
    ∀ p ∈ l, ∀ k, k ≤ p.length →
      (lookupPath (l.foldl insertPath t) (p.take k)).isSome = true := by
  induction l generalizing t with
  | nil => intro p hp; simp at hp
  | cons q qs ih =>
    intro p hp k hk
    obtain ⟨hpc', hroot', hch'⟩ := pc_insertPath hInv hpc hroot q
    rcases List.mem_cons.mp hp with heq | hmem
    · show (lookupPath (qs.foldl insertPath (insertPath t q)) (p.take k)).isSome = true
      rw [heq] at hk ⊢
      exact lookupPath_foldl_insertPath_isSome (hch' k hk)
    · exact ih (inv_insertPath hInv q) hpc' hroot' p hmem k hk

/-- Every input path of a successful Build is present together with all the
chains of segments leading to it. -/
theorem build_inputs_present {sep : Char} {paths : List (List Char)} {t : Tree}
    (h : build sep paths = Except.ok t) :
    ∀ s ∈ paths, ∀ k, k ≤ (splitSegs sep s).length →
      (lookupPath t ((splitSegs sep s).take k)).isSome = true := by
  unfold build at h
  by_cases hc : (paths.map (splitSegs sep)).any (fun segs => segs.any (fun s => s.isEmpty))
  · simp [hc] at h
  · simp [hc] at h
    intro s hs k hk
    rw [← h]
    exact inputs_present_foldl inv_empty (by decide) (by decide)
      (splitSegs sep s) (List.mem_map.mpr ⟨s, hs, rfl⟩) k hk

/-- The concrete tree `Build(['A','A.1','A.2'], rootName='Root')` yields:
root (id 0), A (id 1), A.1 (id 2), A.2 (id 3). -/
def treeA12 : Tree :=
  { id2path := [(0, []), (1, [['A']]), (2, [['A'], ['1']]), (3, [['A'], ['2']])],
    path2id := [([], 0), ([['A']], 1), ([['A'], ['1']], 2), ([['A'], ['2']], 3)],
    nextId := 4 }

/-- C3: `Build(['A','A.1','A.2'], rootName='Root')` yields exactly 4 nodes
(Root, A, A.1, A.2) with the synthetic root the sole top-level holder of A;
and in general every successful Build synthesizes a node for every prefix of
every input path (and of every stored path), assigns sequential integer ids
0, 1, 2, … in first-encounter order, and reserves id 0 for the root. -/
theorem C3_build (sep : Char) (paths : List (List Char)) (t : Tree)
    (h : build sep paths = Except.ok t) :
    (buildS '.' ["A", "A.1", "A.2"] = Except.ok treeA12 ∧
      treeA12.id2path.length = 4 ∧
      getChildren treeA12 [] = [[['A']]] ∧
      getChildren treeA12 [['A']] = [[['A'], ['1']], [['A'], ['2']]]) ∧
    t.id2path.map Prod.fst = List.range t.id2path.length ∧
    lookupId t 0 = some [] ∧
    (∀ s ∈ paths, ∀ k, k ≤ (splitSegs sep s).length →
      (lookupPath t ((splitSegs sep s).take k)).isSome = true) ∧
    (∀ e ∈ t.id2path, ∀ k : Nat, (lookupPath t (e.2.take k)).isSome = true) := by
  refine ⟨⟨by rfl, by rfl, by decide, by decide⟩, (seqIds_build h).1,
    root_present_build h, build_inputs_present h, ?_⟩
  intro e he k
  exact pres_of_pc (inv_build h) (pc_build h).1 he k

theorem C3_build_witness :
    lookupId treeA12 0 = some [] ∧ (lookupPath treeA12 [['A']]).isSome = true := by
  have h := C3_build '.' (["A", "A.1", "A.2"].map String.toList) treeA12 (by rfl)
  exact ⟨h.2.2.1, h.2.2.2.2 (1, [['A']]) (by decide) 1⟩

/-- The ancestor chain of `p`: the root, then every chain of segments leading
to `p`, including `p` itself. -/
def ancestorChain (p : Path) : List Path :=
  (List.range (p.length + 1)).map (fun k => p.take k)

/-- Modelled from the spec: the "expand selection to parents" mode of §4.1 —
for each selected path, walk its ancestor chain and union the ids of all
those nodes into the opened/selected id set handed to the display widget. -/
def expandSelectionToParents (t : Tree) (sel : List Path) : List Nat :=
  sel.flatMap (fun p => (ancestorChain p).filterMap (lookupPath t))

/-- C4: with "expand selection to parents" enabled, selecting any node of a
built tree puts every ancestor on its chain — all the way up to the root
(`k = 0`) — into the opened/selected id set. -/
theorem C4_expand_to_parents (sep : Char) (paths : List (List Char)) (t : Tree)
    (sel : List Path) (p : Path) (k : Nat)
    (hb : build sep paths = Except.ok t) (hsel : p ∈ sel)
    (hp : (lookupPath t p).isSome = true) :
    (lookupPath t (p.take k)).isSome = true ∧
    ∀ j, lookupPath t (p.take k) = some j → j ∈ expandSelectionToParents t sel := by
  have hInv : Inv t := inv_build hb
  have hpc : PrefixClosed t := (pc_build hb).1
  obtain ⟨i, hi⟩ := Option.isSome_iff_exists.mp hp
  have hmem : (i, p) ∈ t.id2path :=
    (mem_path2id_iff_of_inv hInv p i).mp (mem_of_alookup_eq_some hi)
  refine ⟨pres_of_pc hInv hpc hmem k, ?_⟩
  intro j hj
  refine List.mem_flatMap.mpr ⟨p, hsel, List.mem_filterMap.mpr ⟨p.take k, ?_, hj⟩⟩
  unfold ancestorChain
  by_cases hk : k ≤ p.length
  · exact List.mem_map.mpr ⟨k, List.mem_range.mpr (by omega), rfl⟩
  · refine List.mem_map.mpr ⟨p.length, List.mem_range.mpr (by omega), ?_⟩
    rw [List.take_length, List.take_of_length_le (by omega)]

theorem C4_expand_to_parents_witness :
    0 ∈ expandSelectionToParents treeA12 [[['A'], ['1']]] := by
  have h := C4_expand_to_parents '.' (["A", "A.1", "A.2"].map String.toList) treeA12
    [[['A'], ['1']]] [['A'], ['1']] 0 (by rfl) (by decide) (by decide)
  exact h.2 0 (by decide)

theorem under_trans {a b c : Path} (hab : under a b = true) (hbc : under b c = true) :
    under a c = true := by
  have h1 := under_take hab
  have h2 := under_take hbc
  have hlen : a.length ≤ b.length := under_length hab
  simp only [under, decide_eq_true_eq]
  calc c.take a.length = (c.take b.length).take a.length := by
        rw [List.take_take, min_eq_left hlen]
    _ = b.take a.length := by rw [h2]
    _ = a := h1

theorem isChild_append_singleton (p : Path) (s : Seg) : isChild p (p ++ [s]) = true := by
  simp only [isChild, Bool.and_eq_true, decide_eq_true_eq]
  constructor
  · simp
  · rw [List.take_append_of_le_length (le_refl _), List.take_length]

theorem exists_append_of_isChild {p c : Path} (h : isChild p c = true) :
    ∃ s, c = p ++ [s] := by
  simp only [isChild, Bool.and_eq_true, decide_eq_true_eq] at h
  have hsplit : c.take p.length ++ c.drop p.length = c := List.take_append_drop _ _
  have hlen : (c.drop p.length).length = 1 := by
    rw [List.length_drop, h.1]
    omega
  obtain ⟨s, hs⟩ := List.length_eq_one.mp hlen
  exact ⟨s, by rw [← hsplit, h.2, hs]⟩

theorem under_of_append_singleton (p : Path) (s : Seg) : under p (p ++ [s]) = true :=
  under_of_isChild (isChild_append_singleton p s)

theorem strictUnder_take_false (p : Path) (k : Nat) :
    strictUnder p (p.take k) = false := by
  simp only [strictUnder, Bool.and_eq_false_iff, decide_eq_false_iff_not]
  left
  rw [List.length_take]
  omega

theorem strictUnder_self_false (p : Path) : strictUnder p p = false := by
  simp [strictUnder]

theorem lookupPath_removeDesc_of_not_strictUnder {t : Tree} {p q : Path}
    (h : strictUnder p q = false) :
    lookupPath (removeDesc t p) q = lookupPath t q := by
  apply alookup_filter_of_kept
  intro e _ he
  rw [he, h]
  rfl

theorem getChildren_removeDesc_self (t : Tree) (p : Path) :
    getChildren (removeDesc t p) p = [] := by
  unfold getChildren removeDesc
  simp only
  rw [List.filter_filter]
  have : ∀ e ∈ t.id2path, ¬ (isChild p e.2 && !(strictUnder p e.2)) = true := by
    intro e _
    by_cases hc : isChild p e.2 = true
    · simp [hc, strictUnder_of_isChild hc]
    · simp [hc]
  rw [List.filter_eq_nil_iff.mpr this]
  rfl

theorem getChildren_removeDesc_of_safe {t : Tree} {p r : Path}
    (hd : ∀ e ∈ t.id2path, isChild r e.2 = true → strictUnder p e.2 = false) :
    getChildren (removeDesc t p) r = getChildren t r := by
  unfold getChildren removeDesc
  simp only
  rw [List.filter_filter]
  congr 1
  apply List.filter_congr
  intro e he
  by_cases hc : isChild r e.2 = true
  · simp [hc, hd e he hc]
  · simp [hc]

theorem id2path_insertPath1_of_none {t : Tree} {q : Path} (h : lookupPath t q = none) :
    (insertPath1 t q).id2path = t.id2path ++ [(t.nextId, q)] := by
  unfold insertPath1
  rw [h]

theorem lookupPath_insertPath1_other {t : Tree} {c q : Path} (hne : q ≠ c) :
    lookupPath (insertPath1 t c) q = lookupPath t q := by
  cases hl : lookupPath t c with
  | some i => rw [insertPath1_of_some hl]
  | none =>
    unfold insertPath1
    rw [hl]
    show alookup (t.path2id ++ [(c, t.nextId)]) q = alookup t.path2id q
    rw [alookup_append]
    cases hq : alookup t.path2id q with
    | some j => rfl
    | none =>
      show alookup [(c, t.nextId)] q = none
      rw [alookup_cons, if_neg (fun hcq => hne hcq.symm)]
      rfl

theorem getChildren_insertPath1_child {t : Tree} {p q : Path}
    (hfresh : lookupPath t q = none) (hq : isChild p q = true) :
    getChildren (insertPath1 t q) p = getChildren t p ++ [q] := by
  unfold getChildren
  rw [id2path_insertPath1_of_none hfresh, List.filter_append, List.map_append]
  congr 1
  simp [hq]

theorem getChildren_insertPath1_nonchild {t : Tree} {r q : Path}
    (hq : isChild r q = false) :
    getChildren (insertPath1 t q) r = getChildren t r := by
  cases hl : lookupPath t q with
  | some i => rw [insertPath1_of_some hl]
  | none =>
    unfold getChildren
    rw [id2path_insertPath1_of_none hl, List.filter_append, List.map_append]
    simp [hq]

/-- When all the chains leading to `p` are present, inserting the child path
`p ++ [s]` is just the single-node insertion. -/
theorem insertPath_child_eq {t : Tree} {p : Path} (s : Seg)
    (hch : ∀ k, k ≤ p.length → (lookupPath t (p.take k)).isSome = true) :
    insertPath t (p ++ [s]) = insertPath1 t (p ++ [s]) := by
  unfold insertPath
  rw [chainsOf_append_singleton, List.foldl_append]
  have hall : (chainsOf p).foldl insertPath1 t = t := by
    apply foldl_insertPath1_of_all_some
    intro r hr
    obtain ⟨k, hk, hkr⟩ := List.mem_map.mp hr
    rw [← hkr]
    exact hch (k + 1) (List.mem_range.mp hk)
  rw [hall]
  rfl

/-- Folding the insertion of a list of fresh direct children of `p` appends
exactly those children (in order) to `p`'s child list, touches no other
lookup, and leaves the children of unrelated nodes unchanged. -/
theorem setChildren_fold {p : Path} {cs : List Path} {t : Tree}
    (hInv : Inv t)
    (hch : ∀ k, k ≤ p.length → (lookupPath t (p.take k)).isSome = true)
    (hext : ∀ c ∈ cs, isChild p c = true)
    (hnd : cs.Nodup)
    (hfresh : ∀ c ∈ cs, lookupPath t c = none) :
    getChildren (cs.foldl insertPath t) p = getChildren t p ++ cs ∧
    (∀ c ∈ cs, (lookupPath (cs.foldl insertPath t) c).isSome = true) ∧
    (∀ q, (∀ c ∈ cs, q ≠ c) → lookupPath (cs.foldl insertPath t) q = lookupPath t q) ∧
    (∀ r, (∀ c ∈ cs, isChild r c = false) →
      getChildren (cs.foldl insertPath t) r = getChildren t r) := by
  induction cs generalizing t with
  | nil =>
    exact ⟨by simp, by simp, fun q _ => rfl, fun r _ => rfl⟩
  | cons c cs' ih =>
    obtain ⟨s, hs⟩ := exists_append_of_isChild (hext c (List.mem_cons_self c cs'))
    have hcfresh : lookupPath t c = none := hfresh c (List.mem_cons_self c cs')
    have hstep : insertPath t c = insertPath1 t c := by
      rw [hs]
      exact insertPath_child_eq s hch
    have hInv1 : Inv (insertPath1 t c) := inv_insertPath1 hInv c
    have hch1 : ∀ k, k ≤ p.length →
        (lookupPath (insertPath1 t c) (p.take k)).isSome = true :=
      fun k hk => lookupPath_insertPath1_isSome (hch k hk)
    have hext1 : ∀ c' ∈ cs', isChild p c' = true :=
      fun c' hc' => hext c' (List.mem_cons_of_mem _ hc')
    have hnd1 : cs'.Nodup := (List.nodup_cons.mp hnd).2
    have hcne : ∀ c' ∈ cs', c' ≠ c :=
      fun c' hc' heq => (List.nodup_cons.mp hnd).1 (heq ▸ hc')
    have hfresh1 : ∀ c' ∈ cs', lookupPath (insertPath1 t c) c' = none := by
      intro c' hc'
      rw [lookupPath_insertPath1_other (hcne c' hc')]
      exact hfresh c' (List.mem_cons_of_mem _ hc')
    obtain ⟨iha, ihb, ihc, ihd⟩ := ih hInv1 hch1 hext1 hnd1 hfresh1
    have hfold : (c :: cs').foldl insertPath t = cs'.foldl insertPath (insertPath1 t c) := by
      show cs'.foldl insertPath (insertPath t c) = _
      rw [hstep]
    refine ⟨?_, ?_, ?_, ?_⟩
    · rw [hfold, iha,
        getChildren_insertPath1_child hcfresh (hext c (List.mem_cons_self c cs'))]
      simp
    · intro c' hc'
      rcases List.mem_cons.mp hc' with heq | hmem
      · rw [hfold, heq]
        cases hl : lookupPath (insertPath1 t c) c with
        | none =>
          have := lookupPath_insertPath1_self (t := t) c
          rw [hl] at this
          simp at this
        | some j => exact lookupPath_foldl_insertPath_isSome (by rw [hl]; rfl)
      · exact hfold ▸ ihb c' hmem
    · intro q hq
      rw [hfold, ihc q (fun c' hc' => hq c' (List.mem_cons_of_mem _ hc')),
        lookupPath_insertPath1_other (hq c (List.mem_cons_self c cs'))]
    · intro r hr
      rw [hfold, ihd r (fun c' hc' => hr c' (List.mem_cons_of_mem _ hc')),
        getChildren_insertPath1_nonchild (hr c (List.mem_cons_self c cs'))]

/-- C2: for every tree (with the §3 invariants) and every present path `p`,
`SetChildren(p, cs)` with a duplicate-free list of fresh direct child paths
makes `Children(p)` return exactly `cs` in order, synthesizes a node for
every path of `cs`, changes no lookup outside the subtree of `p`, and leaves
the children of every node in every subtree disjoint from `p`'s (all sibling
subtrees in particular) unchanged. -/
theorem C2_setChildren (t : Tree) (p : Path) (cs : List Path) (i0 : Nat)
    (hInv : Inv t) (hpc : PrefixClosed t) (hp : lookupPath t p = some i0)
    (hext : ∀ c ∈ cs, isChild p c = true) (hnd : cs.Nodup)
    (hfresh : ∀ c ∈ cs, lookupPath t c = none) :
    getChildren (setChildren t p cs) p = cs ∧
    (∀ c ∈ cs, (lookupPath (setChildren t p cs) c).isSome = true) ∧
    (∀ q, strictUnder p q = false → lookupPath (setChildren t p cs) q = lookupPath t q) ∧
    (∀ q r, under p q = false → under q p = false → under q r = true →
      getChildren (setChildren t p cs) r = getChildren t r) := by
  have hset : setChildren t p cs = cs.foldl insertPath (removeDesc t p) := by
    unfold setChildren
    rw [hp]
  have hmem : (i0, p) ∈ t.id2path :=
    (mem_path2id_iff_of_inv hInv p i0).mp (mem_of_alookup_eq_some hp)
  have hch0 : ∀ k, k ≤ p.length → (lookupPath (removeDesc t p) (p.take k)).isSome = true := by
    intro k hk
    rw [lookupPath_removeDesc_of_not_strictUnder (strictUnder_take_false p k)]
    exact pres_of_pc hInv hpc hmem k
  have hfresh0 : ∀ c ∈ cs, lookupPath (removeDesc t p) c = none := by
    intro c hc
    exact alookup_filter_of_none (hfresh c hc)
  obtain ⟨ha, hb, hc, hd⟩ :=
    setChildren_fold (inv_removeDesc hInv p) hch0 hext hnd hfresh0
  have hcsu : ∀ c ∈ cs, strictUnder p c = true :=
    fun c hcm => strictUnder_of_isChild (hext c hcm)
  refine ⟨?_, ?_, ?_, ?_⟩
  · rw [hset, ha, getChildren_removeDesc_self]
    rfl
  · intro c hcm
    rw [hset]
    exact hb c hcm
  · intro q hq
    have hqc : ∀ c ∈ cs, q ≠ c := by
      intro c hcm heq
      rw [heq, hcsu c hcm] at hq
      exact Bool.noConfusion hq
    rw [hset, hc q hqc, lookupPath_removeDesc_of_not_strictUnder hq]
  · intro q r hpq hqp hqr
    have hcomp : ∀ x : Path, under p x = true → under r x = true → False := by
      intro x hpx hrx
      rcases under_comparable hpx hrx with hpr | hrp
      · rcases under_comparable hpr hqr with h1 | h1
        · rw [h1] at hpq
          exact Bool.noConfusion hpq
        · rw [h1] at hqp
          exact Bool.noConfusion hqp
      · have h2 := under_trans hqr hrp
        rw [h2] at hqp
        exact Bool.noConfusion hqp
    have hrc : ∀ c ∈ cs, isChild r c = false := by
      intro c hcm
      cases hx : isChild r c with
      | false => rfl
      | true =>
        exact (hcomp c (under_of_strictUnder (hcsu c hcm)) (under_of_isChild hx)).elim
    have hsafe : ∀ e ∈ t.id2path, isChild r e.2 = true → strictUnder p e.2 = false := by
      intro e _ hce
      cases hx : strictUnder p e.2 with
      | false => rfl
      | true =>
        exact (hcomp e.2 (under_of_strictUnder hx) (under_of_isChild hce)).elim
    rw [hset, hd r hrc, getChildren_removeDesc_of_safe hsafe]

theorem C2_setChildren_witness :
    getChildren (setChildren treeAB [['A']] [[['A'], ['1']], [['A'], ['2']]]) [['A']] =
      [[['A'], ['1']], [['A'], ['2']]] :=
  (C2_setChildren treeAB [['A']] [[['A'], ['1']], [['A'], ['2']]] 1
    (by decide) (by decide) (by decide) (by decide) (by decide) (by decide)).1

theorem splitSegsAux_no_sep (sep : Char) (cs : List Char) (acc : List Char) (h : sep ∉ cs) :
    splitSegsAux sep cs acc = [acc.reverse ++ cs] := by
  induction cs generalizing acc with
  | nil => simp [splitSegsAux]
  | cons c cs' ih =>
    have hc : ¬ (c = sep) := fun heq => h (by rw [heq]; exact List.mem_cons_self sep cs')
    rw [splitSegsAux, if_neg hc, ih _ (fun hm => h (List.mem_cons_of_mem _ hm))]
    simp

theorem splitSegs_no_sep (sep : Char) (s : List Char) (h : sep ∉ s) :
    splitSegs sep s = [s] := by
  unfold splitSegs
  rw [splitSegsAux_no_sep sep s [] h]
  rfl

/-- A flat tree: every stored path has at most one segment, i.e. every
non-root node hangs directly below the synthetic root. -/
def Flat (t : Tree) : Prop :=
  ∀ e ∈ t.id2path, e.2.length ≤ 1

instance (t : Tree) : Decidable (Flat t) := by
  unfold Flat
  infer_instance

theorem flat_insertPath1 {t : Tree} (h : Flat t) {q : Path} (hq : q.length ≤ 1) :
    Flat (insertPath1 t q) := by
  cases hl : lookupPath t q with
  | some i => rw [insertPath1_of_some hl]; exact h
  | none =>
    intro e he
    rw [id2path_insertPath1_of_none hl] at he
    rcases List.mem_append.mp he with hold | hnew
    · exact h e hold
    · rw [List.mem_singleton.mp hnew]
      exact hq

theorem flat_insertPath_singleton {t : Tree} (h : Flat t) (s : Seg) :
    Flat (insertPath t [s]) := by
  show Flat (((List.range 1).map (fun k => [s].take (k + 1))).foldl insertPath1 t)
  show Flat (insertPath1 t [s])
  exact flat_insertPath1 h (by simp)

theorem flat_foldl {l : List Path} {t : Tree} (h : Flat t)
    (hl : ∀ q ∈ l, ∃ s, q = [s]) : Flat (l.foldl insertPath t) := by
  induction l generalizing t with
  | nil => exact h
  | cons q qs ih =>
    obtain ⟨s, hs⟩ := hl q (List.mem_cons_self q qs)
    show Flat (qs.foldl insertPath (insertPath t q))
    rw [hs]
    exact ih (flat_insertPath_singleton h s) (fun q' hq' => hl q' (List.mem_cons_of_mem _ hq'))

/-- C9: Build fails with a validation error whenever any segment of any
input path is empty; and when the separator never occurs in the (nonempty)
inputs, Build does not fail but degrades gracefully to a flat one-level
tree: every node is the root or a direct child of the root. -/
theorem C9_build_validation (sep : Char) (paths : List (List Char)) :
    ((∃ s ∈ paths, [] ∈ splitSegs sep s) → build sep paths = Except.error "empty path segment") ∧
    ((∀ s ∈ paths, sep ∉ s ∧ s ≠ []) →
      ∃ t, build sep paths = Except.ok t ∧
        ∀ e ∈ t.id2path, e.2 = [] ∨ isChild [] e.2 = true) := by
  constructor
  · intro hbad
    obtain ⟨s, hs, hmem⟩ := hbad
    unfold build
    have hany : (paths.map (splitSegs sep)).any (fun segs => segs.any (fun x => x.isEmpty)) = true := by
      rw [List.any_eq_true]
      refine ⟨splitSegs sep s, List.mem_map.mpr ⟨s, hs, rfl⟩, ?_⟩
      rw [List.any_eq_true]
      exact ⟨[], hmem, rfl⟩
    rw [if_pos hany]
  · intro hgood
    have hnone : (paths.map (splitSegs sep)).any (fun segs => segs.any (fun x => x.isEmpty)) = false := by
      rw [List.any_eq_false]
      intro segs hsegs
      obtain ⟨s, hs, hseq⟩ := List.mem_map.mp hsegs
      rw [← hseq, splitSegs_no_sep sep s (hgood s hs).1]
      intro hc
      rw [List.any_eq_true] at hc
      obtain ⟨x, hx, hxe⟩ := hc
      rw [List.mem_singleton.mp hx] at hxe
      exact (hgood s hs).2 (List.isEmpty_iff.mp hxe)
    refine ⟨(paths.map (splitSegs sep)).foldl insertPath emptyTree, ?_, ?_⟩
    · unfold build
      rw [if_neg (by rw [hnone]; exact fun hc => Bool.noConfusion hc)]
    · have hflat : Flat ((paths.map (splitSegs sep)).foldl insertPath emptyTree) := by
        apply flat_foldl (by decide)
        intro q hq
        obtain ⟨s, hs, hseq⟩ := List.mem_map.mp hq
        rw [← hseq, splitSegs_no_sep sep s (hgood s hs).1]
        exact ⟨s, rfl⟩
      intro e he
      have hlen := hflat e he
      match hcase : e.2 with
      | [] => exact Or.inl rfl
      | [s] =>
        refine Or.inr ?_
        simp [isChild]
      | s :: s' :: rest =>
        rw [hcase] at hlen
        simp at hlen

theorem C9_build_validation_witness :
    okTree (build '.' [['A', 'B'], []]) = none ∧
    (okTree (build '.' [['A'], ['B']])).isSome = true := by
  constructor
  · have h := (C9_build_validation '.' [['A', 'B'], []]).1 (by decide)
    rw [h]
    rfl
  · obtain ⟨t, ht, _⟩ := (C9_build_validation '.' [['A'], ['B']]).2 (by decide)
    rw [ht]
    rfl

/-- Modelled from the spec: the widget state pairing the canonical tree with
the display-only rename substitution table of §4.1 (a mapping from exact
path to replacement display label, applied at render time only). -/
structure TreeWidget where
  tree : Tree
  subst : List (Path × Seg)

/-- Rename via substitution table: install a table. Only the overlay changes;
the canonical tree is untouched. -/
def setSubstitution (w : TreeWidget) (s : List (Path × Seg)) : TreeWidget :=
  { w with subst := s }

/-- The label rendered for the node at path `p`: the substitution entry when
one exists, otherwise the node's own display name (its last segment). -/
def renderLabel (w : TreeWidget) (p : Path) : Seg :=
  match alookup w.subst p with
  | some lbl => lbl
  | none => p.getLastD []

/-- C5: applying a rename substitution table changes only what is displayed:
every path in the table renders as its replacement label, while the
canonical tree — hence every lookup and Children query — is exactly the one
from before the rename, and two distinct paths always keep distinct ids,
even when they render identically. -/
theorem C5_rename_display_only (w : TreeWidget) (s : List (Path × Seg))
    (hInv : Inv w.tree) :
    (∀ p lbl, alookup s p = some lbl → renderLabel (setSubstitution w s) p = lbl) ∧
    (setSubstitution w s).tree = w.tree ∧
    (∀ p, lookupPath (setSubstitution w s).tree p = lookupPath w.tree p) ∧
    (∀ p, getChildren (setSubstitution w s).tree p = getChildren w.tree p) ∧
    (∀ p q i j, lookupPath w.tree p = some i → lookupPath w.tree q = some j →
      p ≠ q → i ≠ j) := by
  refine ⟨?_, rfl, fun p => rfl, fun p => rfl, ?_⟩
  · intro p lbl hp
    unfold renderLabel setSubstitution
    rw [hp]
  · intro p q i j hp hq hne heq
    have h1 : lookupId w.tree i = some p := (lookup_inverse_of_inv hInv i p).mpr hp
    have h2 : lookupId w.tree j = some q := (lookup_inverse_of_inv hInv j q).mpr hq
    rw [heq, h2] at h1
    exact hne (Option.some.inj h1).symm

theorem C5_rename_display_only_witness :
    renderLabel (setSubstitution ⟨treeAB, []⟩ [([['A']], ['X'])]) [['A']] = ['X'] ∧
    (setSubstitution ⟨treeAB, []⟩ [([['A']], ['X'])]).tree = treeAB := by
  have h := C5_rename_display_only ⟨treeAB, []⟩ [([['A']], ['X'])] (by decide)
  exact ⟨h.1 [['A']] ['X'] (by decide), h.2.1⟩

/-- An RGB color with integer channels (0–255 in well-formed colors). -/
structure RGB where
  r : Nat
  g : Nat
  b : Nat
deriving DecidableEq

def rgbZero : RGB := ⟨0, 0, 0⟩

/-- Modelled from the spec: linear interpolation of one color channel at
position `f ∈ [0,1]` between channel values `c0` and `c1`, truncated to an
integer channel value. -/
def interpChannel (c0 c1 : Nat) (f : ℚ) : Nat :=
  (Int.floor ((c0 : ℚ) + f * ((c1 : ℚ) - (c0 : ℚ)))).toNat

/-- Channel-wise linear interpolation between two colors. -/
def interpRGB (a b : RGB) (f : ℚ) : RGB :=
  ⟨interpChannel a.r b.r f, interpChannel a.g b.g f, interpChannel a.b b.b f⟩

/-- Modelled from the spec: the colorInterpolator of §4.2 (`vois/colors.py`,
not among the provided sources): an ordered list of reference colors evenly
spaced over `[minValue, maxValue]`. -/
structure colorInterpolator where
  colors : List RGB
  minValue : ℚ
  maxValue : ℚ

/-- Clamp `v` into `[lo, hi]`. -/
def clampQ (lo hi v : ℚ) : ℚ := max lo (min hi v)

/-- Position of `v` in segment units: 0 at `minValue`, N-1 at `maxValue`. -/
def tOf (c : colorInterpolator) (v : ℚ) : ℚ :=
  (clampQ c.minValue c.maxValue v - c.minValue) / (c.maxValue - c.minValue)
    * ((c.colors.length : ℚ) - 1)

/-- Index of the enclosing segment between consecutive stops. -/
def segOf (c : colorInterpolator) (v : ℚ) : Nat :=
  min (c.colors.length - 2) (Int.floor (tOf c v)).toNat

/-- Fractional position of `v` inside its enclosing segment. -/
def fOf (c : colorInterpolator) (v : ℚ) : ℚ :=
  tOf c v - (segOf c v : ℚ)

/-- Modelled from the spec: GetColor of §4.2 — clamp the value to the range,
locate the enclosing segment, and linearly interpolate each channel
independently within it; a single-color list returns that color for any
input, and a degenerate (min = max) range returns the first color. -/
def GetColor (c : colorInterpolator) (v : ℚ) : RGB :=
  if c.colors.length = 0 then rgbZero
  else if c.colors.length = 1 ∨ c.minValue = c.maxValue then c.colors.getD 0 rgbZero
  else
    interpRGB (c.colors.getD (segOf c v) rgbZero)
      (c.colors.getD (segOf c v + 1) rgbZero) (fOf c v)

/-- The query value sitting exactly at the k-th reference stop. -/
def stopValue (c : colorInterpolator) (k : Nat) : ℚ :=
  c.minValue + (c.maxValue - c.minValue) * k / ((c.colors.length : ℚ) - 1)

theorem interpChannel_zero (c0 c1 : Nat) : interpChannel c0 c1 0 = c0 := by
  unfold interpChannel
  rw [zero_mul, add_zero, Int.floor_natCast, Int.toNat_natCast]

theorem interpChannel_one (c0 c1 : Nat) : interpChannel c0 c1 1 = c1 := by
  unfold interpChannel
  rw [one_mul, add_sub_cancel, Int.floor_natCast, Int.toNat_natCast]

theorem interpRGB_zero (a b : RGB) : interpRGB a b 0 = a := by
  unfold interpRGB
  rw [interpChannel_zero, interpChannel_zero, interpChannel_zero]

theorem interpRGB_one (a b : RGB) : interpRGB a b 1 = b := by
  unfold interpRGB
  rw [interpChannel_one, interpChannel_one, interpChannel_one]

theorem interpChannel_mono {c0 c1 : Nat} {f1 f2 : ℚ} (hf : f1 ≤ f2) (hc : c0 ≤ c1) :
    interpChannel c0 c1 f1 ≤ interpChannel c0 c1 f2 := by
  unfold interpChannel
  apply Int.toNat_le_toNat
  apply Int.floor_le_floor
  have hd : (0 : ℚ) ≤ (c1 : ℚ) - (c0 : ℚ) := by
    rw [sub_nonneg]
    exact_mod_cast hc
  have := mul_le_mul_of_nonneg_right hf hd
  linarith

theorem interpChannel_anti {c0 c1 : Nat} {f1 f2 : ℚ} (hf : f1 ≤ f2) (hc : c1 ≤ c0) :
    interpChannel c0 c1 f2 ≤ interpChannel c0 c1 f1 := by
  unfold interpChannel
  apply Int.toNat_le_toNat
  apply Int.floor_le_floor
  have hd : (c1 : ℚ) - (c0 : ℚ) ≤ 0 := by
    rw [sub_nonpos]
    exact_mod_cast hc
  have := mul_le_mul_of_nonpos_right hf hd
  linarith

theorem clampQ_mono (lo hi : ℚ) {v1 v2 : ℚ} (h : v1 ≤ v2) :
    clampQ lo hi v1 ≤ clampQ lo hi v2 := by
  unfold clampQ
  exact max_le_max (le_refl lo) (min_le_min (le_refl hi) h)

theorem clampQ_of_mem {lo hi v : ℚ} (h1 : lo ≤ v) (h2 : v ≤ hi) :
    clampQ lo hi v = v := by
  unfold clampQ
  rw [min_eq_right h2, max_eq_right h1]

theorem tOf_mono {c : colorInterpolator} (hn : 2 ≤ c.colors.length)
    (hlt : c.minValue < c.maxValue) {v1 v2 : ℚ} (h : v1 ≤ v2) :
    tOf c v1 ≤ tOf c v2 := by
  unfold tOf
  have hs : (0 : ℚ) < c.maxValue - c.minValue := by linarith
  have hn1 : (0 : ℚ) ≤ (c.colors.length : ℚ) - 1 := by
    have : (2 : ℚ) ≤ (c.colors.length : ℚ) := by exact_mod_cast hn
    linarith
  apply mul_le_mul_of_nonneg_right _ hn1
  apply (div_le_div_iff_of_pos_right hs).mpr
  have := clampQ_mono c.minValue c.maxValue h
  linarith

theorem GetColor_eq {c : colorInterpolator} (hn : 2 ≤ c.colors.length)
    (hlt : c.minValue < c.maxValue) (v : ℚ) :
    GetColor c v =
      interpRGB (c.colors.getD (segOf c v) rgbZero)
        (c.colors.getD (segOf c v + 1) rgbZero) (fOf c v) := by
  unfold GetColor
  rw [if_neg (by omega), if_neg ?_]
  rintro (h1 | h2)
  · omega
  · exact absurd h2 (ne_of_lt hlt)

theorem tOf_stop {c : colorInterpolator} (hn : 2 ≤ c.colors.length)
    (hlt : c.minValue < c.maxValue) {k : Nat} (hk : k < c.colors.length) :
    tOf c (stopValue c k) = (k : ℚ) := by
  unfold tOf stopValue
  have hn2 : (2 : ℚ) ≤ (c.colors.length : ℚ) := by exact_mod_cast hn
  have hn1 : (0 : ℚ) < (c.colors.length : ℚ) - 1 := by linarith
  have hD : (0 : ℚ) < c.maxValue - c.minValue := by linarith
  have hkn : (k : ℚ) ≤ (c.colors.length : ℚ) - 1 := by
    have : (k : ℚ) + 1 ≤ (c.colors.length : ℚ) := by exact_mod_cast hk
    linarith
  have hclamp : clampQ c.minValue c.maxValue
      (c.minValue + (c.maxValue - c.minValue) * k / ((c.colors.length : ℚ) - 1)) =
      c.minValue + (c.maxValue - c.minValue) * k / ((c.colors.length : ℚ) - 1) := by
    apply clampQ_of_mem
    · have h0 : (0 : ℚ) ≤ (c.maxValue - c.minValue) * k / ((c.colors.length : ℚ) - 1) :=
        div_nonneg (mul_nonneg (le_of_lt hD) (Nat.cast_nonneg k)) (le_of_lt hn1)
      linarith
    · have h1 : (c.maxValue - c.minValue) * (k : ℚ) / ((c.colors.length : ℚ) - 1) ≤
          c.maxValue - c.minValue := by
        rw [div_le_iff₀ hn1]
        have := mul_le_mul_of_nonneg_left hkn (le_of_lt hD)
        linarith
      linarith
  rw [hclamp]
  field_simp
  ring

theorem GetColor_stop {c : colorInterpolator} (hn : 2 ≤ c.colors.length)
    (hlt : c.minValue < c.maxValue) {k : Nat} (hk : k < c.colors.length) :
    GetColor c (stopValue c k) = c.colors.getD k rgbZero := by
  rw [GetColor_eq hn hlt]
  have ht : tOf c (stopValue c k) = (k : ℚ) := tOf_stop hn hlt hk
  have hseg : segOf c (stopValue c k) = min (c.colors.length - 2) k := by
    unfold segOf
    rw [ht, Int.floor_natCast, Int.toNat_natCast]
  by_cases hk2 : k ≤ c.colors.length - 2
  · have hseg' : segOf c (stopValue c k) = k := by
      rw [hseg, min_eq_right hk2]
    have hf : fOf c (stopValue c k) = 0 := by
      unfold fOf
      rw [ht, hseg', sub_self]
    rw [hf, hseg', interpRGB_zero]
  · have hseg' : segOf c (stopValue c k) = c.colors.length - 2 := by
      rw [hseg, min_eq_left (by omega)]
    have hf : fOf c (stopValue c k) = 1 := by
      unfold fOf
      rw [ht, hseg']
      have h2 : ((c.colors.length - 2 : Nat) : ℚ) = (c.colors.length : ℚ) - 2 := by
        rw [Nat.cast_sub hn]
        norm_num
      have h1 : (k : ℚ) = (c.colors.length : ℚ) - 1 := by
        have hk1 : k = c.colors.length - 1 := by omega
        rw [hk1, Nat.cast_sub (by omega : 1 ≤ c.colors.length)]
        norm_num
      rw [h1, h2]
      ring
    rw [hf, interpRGB_one]
    congr 1
    omega

theorem fOf_mono {c : colorInterpolator} (hn : 2 ≤ c.colors.length)
    (hlt : c.minValue < c.maxValue) {v1 v2 : ℚ} (h : v1 ≤ v2)
    (hseg : segOf c v1 = segOf c v2) : fOf c v1 ≤ fOf c v2 := by
  unfold fOf
  rw [hseg]
  have := tOf_mono hn hlt h
  linarith

/-- C7: for an interpolator over any ordered reference-color list evenly
spaced on [min,max], a query exactly at a stop returns that stop's color
unmodified, and within one segment every channel of the result is monotone
in the query value (increasing when the right stop dominates the left one on
that channel, decreasing when it is dominated). -/
theorem C7_interpolation (c : colorInterpolator) (hn : 2 ≤ c.colors.length)
    (hlt : c.minValue < c.maxValue) :
    (∀ k, k < c.colors.length → GetColor c (stopValue c k) = c.colors.getD k rgbZero) ∧
    (∀ v1 v2, v1 ≤ v2 → segOf c v1 = segOf c v2 →
      (((c.colors.getD (segOf c v1) rgbZero).r ≤ (c.colors.getD (segOf c v1 + 1) rgbZero).r →
          (GetColor c v1).r ≤ (GetColor c v2).r) ∧
        ((c.colors.getD (segOf c v1 + 1) rgbZero).r ≤ (c.colors.getD (segOf c v1) rgbZero).r →
          (GetColor c v2).r ≤ (GetColor c v1).r)) ∧
      (((c.colors.getD (segOf c v1) rgbZero).g ≤ (c.colors.getD (segOf c v1 + 1) rgbZero).g →
          (GetColor c v1).g ≤ (GetColor c v2).g) ∧
        ((c.colors.getD (segOf c v1 + 1) rgbZero).g ≤ (c.colors.getD (segOf c v1) rgbZero).g →
          (GetColor c v2).g ≤ (GetColor c v1).g)) ∧
      (((c.colors.getD (segOf c v1) rgbZero).b ≤ (c.colors.getD (segOf c v1 + 1) rgbZero).b →
          (GetColor c v1).b ≤ (GetColor c v2).b) ∧
        ((c.colors.getD (segOf c v1 + 1) rgbZero).b ≤ (c.colors.getD (segOf c v1) rgbZero).b →
          (GetColor c v2).b ≤ (GetColor c v1).b))) := by
  refine ⟨fun k hk => GetColor_stop hn hlt hk, ?_⟩
  intro v1 v2 hv hseg
  have hf := fOf_mono hn hlt hv hseg
  rw [GetColor_eq hn hlt v1, GetColor_eq hn hlt v2, ← hseg]
  exact ⟨⟨fun hc => interpChannel_mono hf hc, fun hc => interpChannel_anti hf hc⟩,
    ⟨fun hc => interpChannel_mono hf hc, fun hc => interpChannel_anti hf hc⟩,
    ⟨fun hc => interpChannel_mono hf hc, fun hc => interpChannel_anti hf hc⟩⟩

/-- The two-stop black-to-white interpolator over [0, 100]. -/
def cInterpBW : colorInterpolator :=
  ⟨[⟨0, 0, 0⟩, ⟨255, 255, 255⟩], 0, 100⟩

theorem segOf_of_two {c : colorInterpolator} (h : c.colors.length = 2) (v : ℚ) :
    segOf c v = 0 := by
  unfold segOf
  rw [h]
  simp

theorem C7_interpolation_witness :
    GetColor cInterpBW (stopValue cInterpBW 1) = cInterpBW.colors.getD 1 rgbZero ∧
    (GetColor cInterpBW 10).r ≤ (GetColor cInterpBW 20).r := by
  have h := C7_interpolation cInterpBW (by decide) (by decide)
  refine ⟨h.1 1 (by decide), ?_⟩
  have hseg1 : segOf cInterpBW 10 = 0 := segOf_of_two (show cInterpBW.colors.length = 2 from rfl) 10
  have hseg2 : segOf cInterpBW 20 = 0 := segOf_of_two (show cInterpBW.colors.length = 2 from rfl) 20
  have h2 := h.2 10 20 (by decide) (by rw [hseg1, hseg2])
  have h3 := h2.1.1
  rw [hseg1] at h3
  exact h3 (by decide)

/-- Value of one hexadecimal digit character (either letter case accepted). -/
def hexDigitVal (ch : Char) : Option Nat :=
  if '0' ≤ ch ∧ ch ≤ '9' then some (ch.toNat - '0'.toNat)
  else if 'A' ≤ ch ∧ ch ≤ 'F' then some (ch.toNat - 'A'.toNat + 10)
  else if 'a' ≤ ch ∧ ch ≤ 'f' then some (ch.toNat - 'a'.toNat + 10)
  else none

/-- Value of a two-digit hexadecimal pair. -/
def pairVal (a b : Char) : Option Nat :=
  match hexDigitVal a, hexDigitVal b with
  | some x, some y => some (16 * x + y)
  | _, _ => none

/-- The hexadecimal digit character for `d < 16`, uppercase as in the spec's
`'#7F7F7F'` example. -/
def toHexDigit (d : Nat) : Char :=
  if d < 10 then Char.ofNat ('0'.toNat + d) else Char.ofNat ('A'.toNat + d - 10)

/-- Two-character hexadecimal rendering of one byte. -/
def byteToHex (n : Nat) : List Char :=
  [toHexDigit (n / 16), toHexDigit (n % 16)]

/-- Modelled from the spec: hex2rgb of `vois/colors.py` (not among the
provided sources) — parse a `'#rrggbb'` string into an (r,g,b) triple,
`none` when malformed. -/
def hex2rgbL : List Char → Option RGB
  | ['#', r1, r2, g1, g2, b1, b2] =>
    match pairVal r1 r2, pairVal g1 g2, pairVal b1 b2 with
    | some r, some g, some b => some ⟨r, g, b⟩
    | _, _, _ => none
  | _ => none

def hex2rgb (s : String) : Option RGB :=
  hex2rgbL s.toList

/-- Modelled from the spec: rgb2hex of `vois/colors.py` — render an (r,g,b)
triple as a `'#rrggbb'` string; uppercase digits, following the spec's
`'#7F7F7F'` example. -/
def rgb2hexL (c : RGB) : List Char :=
  '#' :: (byteToHex c.r ++ byteToHex c.g ++ byteToHex c.b)

def rgb2hex (c : RGB) : String :=
  String.mk (rgb2hexL c)

/-- The sixteen uppercase hexadecimal digit characters. -/
def upHexChars : List Char :=
  ['0', '1', '2', '3', '4', '5', '6', '7', '8', '9', 'A', 'B', 'C', 'D', 'E', 'F']

/-- A well-formed `'#rrggbb'` string in the output format of rgb2hex:
`'#'` followed by six uppercase hexadecimal digits. -/
def wellFormedHexL : List Char → Bool
  | ['#', r1, r2, g1, g2, b1, b2] =>
    decide (r1 ∈ upHexChars) && decide (r2 ∈ upHexChars) &&
    decide (g1 ∈ upHexChars) && decide (g2 ∈ upHexChars) &&
    decide (b1 ∈ upHexChars) && decide (b2 ∈ upHexChars)
  | _ => false

def wellFormedHex (s : String) : Bool :=
  wellFormedHexL s.toList

/-- Modelled from the spec: the §8 example operation — parse the reference
colors, interpolate at the query value, and render the result in hex. -/
def Interpolate (cols : List String) (lo hi v : ℚ) : String :=
  rgb2hex (GetColor ⟨cols.filterMap hex2rgb, lo, hi⟩ v)

set_option maxRecDepth 4096 in
theorem hex_pair_round_bool : (upHexChars.all (fun a => upHexChars.all (fun b =>
    match pairVal a b with
    | some n => decide (byteToHex n = [a, b]) && decide (n ≤ 255)
    | none => false))) = true := by decide

theorem hex_pair_round {a b : Char} (ha : a ∈ upHexChars) (hb : b ∈ upHexChars) :
    ∃ n, pairVal a b = some n ∧ byteToHex n = [a, b] ∧ n ≤ 255 := by
  have h1 := List.all_eq_true.mp hex_pair_round_bool a ha
  have h2 := List.all_eq_true.mp h1 b hb
  cases hp : pairVal a b with
  | none =>
    rw [hp] at h2
    exact absurd h2 (by simp)
  | some n =>
    rw [hp] at h2
    simp only [Bool.and_eq_true, decide_eq_true_eq] at h2
    exact ⟨n, rfl, h2.1, h2.2⟩

set_option maxRecDepth 4096 in
theorem byte_round_bool : ((List.range 256).all (fun n =>
    pairVal (toHexDigit (n / 16)) (toHexDigit (n % 16)) == some n)) = true := by decide

theorem byte_round {n : Nat} (h : n ≤ 255) :
    pairVal (toHexDigit (n / 16)) (toHexDigit (n % 16)) = some n := by
  have hm := List.all_eq_true.mp byte_round_bool n (List.mem_range.mpr (by omega))
  exact eq_of_beq hm

/-- C10: hex2rgb and rgb2hex are mutually inverse — every well-formed
`'#rrggbb'` string (in rgb2hex's own format: `'#'` plus six uppercase hex
digits) parses to a triple that renders back to the same string, and every
triple with channels in 0..255 renders to a string that parses back to the
same triple. -/
theorem C10_hex_rgb_inverse :
    (∀ s : String, wellFormedHex s = true →
      ∃ c, hex2rgb s = some c ∧ rgb2hex c = s) ∧
    (∀ c : RGB, c.r ≤ 255 → c.g ≤ 255 → c.b ≤ 255 → hex2rgb (rgb2hex c) = some c) := by
  constructor
  · intro s hs
    cases s with
    | mk l =>
      unfold wellFormedHex at hs
      show ∃ c, hex2rgbL l = some c ∧ rgb2hex c = String.mk l
      unfold wellFormedHexL at hs
      split at hs
      next c1 c2 c3 c4 c5 c6 heq =>
        have hl : l = ['#', c1, c2, c3, c4, c5, c6] := heq
        subst hl
        simp only [Bool.and_eq_true, decide_eq_true_eq] at hs
        obtain ⟨⟨⟨⟨⟨h1, h2⟩, h3⟩, h4⟩, h5⟩, h6⟩ := hs
        obtain ⟨nr, hnr, hbr, _⟩ := hex_pair_round h1 h2
        obtain ⟨ng, hng, hbg, _⟩ := hex_pair_round h3 h4
        obtain ⟨nb, hnb, hbb, _⟩ := hex_pair_round h5 h6
        refine ⟨⟨nr, ng, nb⟩, ?_, ?_⟩
        · show (match pairVal c1 c2, pairVal c3 c4, pairVal c5 c6 with
            | some r, some g, some b => some (RGB.mk r g b)
            | _, _, _ => none) = some ⟨nr, ng, nb⟩
          rw [hnr, hng, hnb]
        · show String.mk (rgb2hexL ⟨nr, ng, nb⟩) = _
          apply congrArg String.mk
          show '#' :: (byteToHex nr ++ byteToHex ng ++ byteToHex nb) =
            ['#', c1, c2, c3, c4, c5, c6]
          rw [hbr, hbg, hbb]
          rfl
      next =>
        exact absurd hs (by simp)
  · intro c hr hg hb
    show hex2rgbL (rgb2hexL c) = some c
    show (match pairVal (toHexDigit (c.r / 16)) (toHexDigit (c.r % 16)),
        pairVal (toHexDigit (c.g / 16)) (toHexDigit (c.g % 16)),
        pairVal (toHexDigit (c.b / 16)) (toHexDigit (c.b % 16)) with
      | some r, some g, some b => some (RGB.mk r g b)
      | _, _, _ => none) = some c
    rw [byte_round hr, byte_round hg, byte_round hb]

theorem C10_hex_rgb_inverse_witness :
    hex2rgb "#1A2B3C" = some ⟨26, 43, 60⟩ ∧ rgb2hex ⟨26, 43, 60⟩ = "#1A2B3C" ∧
    hex2rgb (rgb2hex ⟨255, 0, 0⟩) = some ⟨255, 0, 0⟩ := by
  have h := C10_hex_rgb_inverse
  obtain ⟨c, hc1, hc2⟩ := h.1 "#1A2B3C" (by decide)
  have hcv : c = ⟨26, 43, 60⟩ := by
    have : hex2rgb "#1A2B3C" = some (⟨26, 43, 60⟩ : RGB) := by decide
    rw [this] at hc1
    exact (Option.some.inj hc1).symm
  rw [hcv] at hc1 hc2
  exact ⟨hc1, hc2, h.2 ⟨255, 0, 0⟩ (by decide) (by decide) (by decide)⟩

theorem interpChannel_mid : interpChannel 0 255 (1 / 2) = 127 := by
  unfold interpChannel
  have he : ((0 : Nat) : ℚ) + 1 / 2 * (((255 : Nat) : ℚ) - ((0 : Nat) : ℚ)) = 255 / 2 := by
    push_cast
    ring
  rw [he]
  have hfl : Int.floor ((255 : ℚ) / 2) = 127 := by
    rw [Int.floor_eq_iff]
    constructor <;> norm_num
  rw [hfl]
  rfl

/-- C8: interpolating between `'#000000'` and `'#FFFFFF'` over [0, 100] at
the query value 50 returns `'#7F7F7F'` — every channel 127 at the midpoint. -/
theorem C8_midpoint : Interpolate ["#000000", "#FFFFFF"] 0 100 50 = "#7F7F7F" := by
  unfold Interpolate
  have hcols : (["#000000", "#FFFFFF"].filterMap hex2rgb) =
      [⟨0, 0, 0⟩, ⟨255, 255, 255⟩] := by decide
  rw [hcols]
  have hc2 : (colorInterpolator.mk [⟨0, 0, 0⟩, ⟨255, 255, 255⟩] 0 100).colors.length = 2 := rfl
  have hGC : GetColor ⟨[⟨0, 0, 0⟩, ⟨255, 255, 255⟩], 0, 100⟩ 50 = ⟨127, 127, 127⟩ := by
    rw [GetColor_eq (by rw [hc2]) (by norm_num)]
    rw [segOf_of_two hc2]
    have ht : tOf ⟨[⟨0, 0, 0⟩, ⟨255, 255, 255⟩], 0, 100⟩ 50 = 1 / 2 := by
      unfold tOf clampQ
      rw [hc2]
      rw [min_eq_right (by norm_num), max_eq_right (by norm_num)]
      norm_num
    have hf : fOf ⟨[⟨0, 0, 0⟩, ⟨255, 255, 255⟩], 0, 100⟩ 50 = 1 / 2 := by
      unfold fOf
      rw [segOf_of_two hc2, ht]
      norm_num
    rw [hf]
    show (⟨interpChannel 0 255 (1 / 2), interpChannel 0 255 (1 / 2),
      interpChannel 0 255 (1 / 2)⟩ : RGB) = ⟨127, 127, 127⟩
    rw [interpChannel_mid]
  rw [hGC]
  decide

end Vois
